import Mathlib

/-!
Verification of the DPLL core in src/dpll/dpll.go (package dpll, the draft
containing the Result struct with an RWMutex at lines 20-24 and the
goroutine-based recursiveSolution at lines 228-291; all claim line numbers
refer to that draft).

Shallow embedding conventions:
* Go Literal/Clause/Formula become Int / List Int / List (List Int).
* Go map[Literal]bool becomes an association list with map semantics
  (lookup returns the unique binding, insert overwrites in place).  Go map
  iteration order never influences the functions modelled here, so a fixed
  list order is faithful.
* The propagation loop (for {...} in unitPropagate) is modelled with an
  explicit fuel of countLits f + 1; each pass strictly decreases the total
  number of literal occurrences (proved below as
  countLits_processUnits_lt), so that fuel always suffices and the loop
  exits through its normal `no unit clauses` condition.
* The fork-join concurrency of Solve/recursiveSolution is modelled by the
  list of assignments the task tree can publish into the shared Result
  cell (rsGo).  The entry check `ans.mu.RLock(); if ans.satisfied ...` at
  lines 233-237 only prunes a task after some other task has already
  published, so it never changes the set of possible winners; the final
  cell is satisfied iff that set is nonempty, and any element of the set
  can be the assignment Solve returns.  solveResults therefore returns the
  list of all pairs Solve can return.
-/

namespace DPLL

abbrev Literal := Int
abbrev Clause := List Literal
abbrev Formula := List Clause

/-- Assignment: Go `map[Literal]bool`, as an association list with unique
keys (insert overwrites in place, lookup finds the unique binding). -/
abbrev Assignment := List (Literal × Bool)

/-- Lookup in the assignment map. -/
def lookupA : Assignment → Literal → Option Bool
  | [], _ => none
  | (k, v) :: rest, x => if k = x then some v else lookupA rest x

/-- Map insert: overwrite the existing binding in place, else append. -/
def insertA : Assignment → Literal → Bool → Assignment
  | [], k, v => [(k, v)]
  | (k', v') :: rest, k, v =>
      if k' = k then (k, v) :: rest else (k', v') :: insertA rest k v

/-- `Literal(math.Abs(float64(literal)))`: the literal's variable id. -/
def absL (l : Literal) : Literal := (l.natAbs : Int)

/-- Total number of literal occurrences in a formula (termination measure
for the propagation loop and the search recursion). -/
def countLits (f : Formula) : Nat := (f.map List.length).sum

/-- checkClauseValidity (dpll.go:27-34): false iff some clause is empty. -/
def checkClauseValidity (f : Formula) : Bool :=
  f.all (fun c => !c.isEmpty)

/-- The inner test of isSatisfied (dpll.go:53-60): the literal is satisfied
by the current assignment. -/
def literalSat (a : Assignment) (l : Literal) : Bool :=
  match lookupA a (absL l) with
  | some v => (decide (l > 0) && v) || (decide (l < 0) && !v)
  | none => false

/-- isSatisfied (dpll.go:50-68): every clause has a satisfied literal. -/
def isSatisfied (f : Formula) (a : Assignment) : Bool :=
  f.all (fun c => c.any (literalSat a))

/-- selectLiteral (dpll.go:37-47): first literal, scanning clauses in
formula order, whose variable has no entry in the assignment; the Go
`(0, errors.New(...))` result is modelled as `none`. -/
def selectLiteral : Formula → Assignment → Option Literal
  | [], _ => none
  | c :: rest, a =>
      match c.find? (fun l => (lookupA a (absL l)).isNone) with
      | some l => some l
      | none => selectLiteral rest a

/-- The unit-clause test of unitPropagate (dpll.go:77, `len(clause) == 1`)
together with `clause[0]` (dpll.go:87). -/
def unitOf : Clause → Option Literal
  | [l] => some l
  | _ => none

/-- One iteration of the inner loop of unitPropagate (dpll.go:86-107):
record the forced value under the literal's variable id, drop every clause
containing the literal, and delete the first occurrence of its negation
from each remaining clause. -/
def unitStep (f : Formula) (a : Assignment) (l : Literal) :
    Formula × Assignment :=
  ((f.filter (fun c => !c.contains l)).map (fun c => c.erase (-l)),
   insertA a (absL l) (decide (l > 0)))

/-- The inner loop of unitPropagate over the unit clauses captured at the
start of a pass (dpll.go:86-107). -/
def processUnits (ls : List Literal) (f : Formula) (a : Assignment) :
    Formula × Assignment :=
  ls.foldl (fun p l => unitStep p.1 p.2 l) (f, a)

/-- The outer `for {}` loop of unitPropagate (dpll.go:74-108), with
explicit fuel; every pass that finds a unit clause strictly decreases
countLits, so fuel countLits f + 1 always reaches the normal exit. -/
def unitPropagateGo : Nat → Formula → Assignment → Formula × Assignment
  | 0, f, a => (f, a)
  | fuel + 1, f, a =>
      match f.filterMap unitOf with
      | [] => (f, a)
      | l :: ls =>
          let p := processUnits (l :: ls) f a
          unitPropagateGo fuel p.1 p.2

/-- unitPropagate (dpll.go:71-111). -/
def unitPropagate (f : Formula) (a : Assignment) : Formula × Assignment :=
  unitPropagateGo (countLits f + 1) f a

/-- The literal set built at dpll.go:122-129.  The Go set package iterates
in an unspecified order; every use below (membership tests, and clause
filtering and assignment updates over variable-disjoint pure literals) is
order-independent, so first-occurrence order is a faithful choice. -/
def allLiteralsOf (f : Formula) : List Literal :=
  f.flatten.eraseDups

/-- The pure literals of the formula (dpll.go:130-135): literals whose
negation occurs in no clause. -/
def pureLiteralsOf (f : Formula) : List Literal :=
  (allLiteralsOf f).filter (fun l => !(allLiteralsOf f).contains (-l))

/-- pureLiteralAssignment (dpll.go:118-151): for each pure literal (taken
from the incoming formula, single pass), record its satisfying value under
its variable id and drop every clause containing it. -/
def pureLiteralAssignment (f : Formula) (a : Assignment) :
    Formula × Assignment :=
  (pureLiteralsOf f).foldl
    (fun p l =>
      (p.1.filter (fun c => !c.contains l),
       insertA p.2 (absL l) (decide (l > 0))))
    (f, a)

/-- simplifyFormula (dpll.go:154-166): assuming the literal true, drop
every clause containing it and delete the first occurrence of its negation
from each remaining clause. -/
def simplifyFormula (f : Formula) (l : Literal) : Formula :=
  (f.filter (fun c => !c.contains l)).map (fun c => c.erase (-l))

/-- The propagation pipeline as run by Solve and recursiveSolution
(dpll.go:181-183 and 255-257): unit propagation, then one pass of
pure-literal elimination. -/
def propagate (f : Formula) (a : Assignment) : Formula × Assignment :=
  let p := unitPropagate f a
  pureLiteralAssignment p.1 p.2

/-- The true-branch assignment (dpll.go:201-202 and 276-277):
`assignment1[selectedLiteral] = true` keys the decision under the selected
literal itself, not under its variable id. -/
def branchTrue (a : Assignment) (l : Literal) : Assignment :=
  insertA a l true

/-- The false-branch assignment (dpll.go:209-210 and 284-285). -/
def branchFalse (a : Assignment) (l : Literal) : Assignment :=
  insertA a l false

/-- The set (as a list) of assignments the task tree rooted at one call of
recursiveSolution (dpll.go:228-291) can publish into the shared Result
cell, with explicit fuel.  Each early `return` contributes nothing, each
`ans.satisfied = true` write contributes the written assignment, and the
two spawned children contribute their own publishable sets.  The entry
check at dpll.go:233-237 only prunes after another task has published and
so does not change this set. -/
def rsGo : Nat → Formula → Assignment → List Assignment
  | 0, _, _ => []
  | fuel + 1, f, a =>
      if f.isEmpty then []
      else if !checkClauseValidity f then []
      else if isSatisfied f a then [a]
      else
        let p := propagate f a
        if isSatisfied p.1 p.2 then [p.2]
        else if !checkClauseValidity f then []
        else
          match selectLiteral p.1 p.2 with
          | none => []
          | some l =>
              rsGo fuel (simplifyFormula p.1 l) (branchTrue p.2 l) ++
              rsGo fuel (simplifyFormula p.1 (-l)) (branchFalse p.2 l)

/-- The publishable set of one recursiveSolution task tree; the recursion
depth is bounded by countLits of the formula because every branch step
strictly shrinks the formula (selectLiteral only returns literals that
occur in it). -/
def recursiveSolutionWinners (f : Formula) (a : Assignment) :
    List Assignment :=
  rsGo (countLits f + 1) f a

/-- Solve (dpll.go:168-226), as the list of pairs it can return: the early
returns are deterministic; after the fork-join, ans.satisfied is true iff
some task published, and any published assignment can be the last write
and hence the returned one. -/
def solveResults (f : Formula) (a : Assignment) : List (Bool × Assignment) :=
  if f.isEmpty then [(false, a)]
  else if !checkClauseValidity f then [(false, a)]
  else if isSatisfied f a then [(true, a)]
  else
    let p := propagate f a
    if isSatisfied p.1 p.2 then [(true, p.2)]
    else if !checkClauseValidity f then [(false, a)]
    else
      match selectLiteral p.1 p.2 with
      | none => [(false, a)]
      | some l =>
          let winners :=
            recursiveSolutionWinners (simplifyFormula p.1 l)
              (branchTrue p.2 l) ++
            recursiveSolutionWinners (simplifyFormula p.1 (-l))
              (branchFalse p.2 l)
          if winners.isEmpty then [(false, a)]
          else winners.map (fun w => (true, w))

/-- The shared Result cell (dpll.go:20-24), minus the mutex: the mutex
serializes accesses, so the concurrent history of the cell is a sequence
of these operations. -/
structure ResultCell where
  satisfied : Bool
  assignment : Assignment
deriving DecidableEq

/-- The publish critical section (dpll.go:248-251):
`ans.assignment = assignment; ans.satisfied = true` under ans.mu.Lock(),
an unconditional overwrite. -/
def publish (r : ResultCell) (a : Assignment) : ResultCell :=
  { satisfied := true, assignment := a }

/-- Modelled from the spec (section 5): a publish-once test-and-set cell,
first writer wins, subsequent writes are discarded.  The code has no such
operation; this is the comparison point for claim C9. -/
def publishSpec (r : ResultCell) (a : Assignment) : ResultCell :=
  if r.satisfied then r else { satisfied := true, assignment := a }

/-- Modelled from the spec (section 4.2): the literal is already falsified
by the current assignment. -/
def literalFalsified (a : Assignment) (l : Literal) : Bool :=
  match lookupA a (absL l) with
  | some v => (decide (l > 0) && !v) || (decide (l < 0) && v)
  | none => false

/-- Modelled from the spec (section 4.2): the literal is undetermined. -/
def literalUndetermined (a : Assignment) (l : Literal) : Bool :=
  (lookupA a (absL l)).isNone

/-- Modelled from the spec (section 4.2): a clause is a unit clause if,
after discarding the literals already falsified by the current assignment,
exactly one literal remains undetermined.  Comparison point for claim C3;
the code's own test is unitOf (clause length exactly 1). -/
def specUnitClause (a : Assignment) (c : Clause) : Bool :=
  ((c.filter (fun l => !literalFalsified a l)).filter
    (literalUndetermined a)).length == 1

/-- Modelled from the spec (section 4.3): the first literal in scan order
whose variable has no entry in the assignment.  Comparison point for claim
C8. -/
def selectLiteralSpec (f : Formula) (a : Assignment) : Option Literal :=
  f.flatten.find? (fun l => (lookupA a (absL l)).isNone)

/-! ### Helper lemmas -/

theorem countLits_cons (c : Clause) (f : Formula) :
    countLits (c :: f) = c.length + countLits f := by
  simp [countLits]

theorem countLits_sublist {f g : Formula} (h : f.Sublist g) :
    countLits f ≤ countLits g := by
  induction h with
  | slnil => exact Nat.le_refl _
  | cons c _ ih => simp only [countLits_cons]; omega
  | cons₂ c _ ih => simp only [countLits_cons]; omega

theorem countLits_filter_le (p : Clause → Bool) (f : Formula) :
    countLits (f.filter p) ≤ countLits f :=
  countLits_sublist (List.filter_sublist f)

theorem countLits_map_erase_le (f : Formula) (x : Literal) :
    countLits (f.map (fun c => c.erase x)) ≤ countLits f := by
  induction f with
  | nil => exact Nat.le_refl _
  | cons c f ih =>
      simp only [List.map_cons, countLits_cons]
      have hc : (c.erase x).length ≤ c.length :=
        (List.erase_sublist x c).length_le
      omega

theorem countLits_unitStep_le (f : Formula) (a : Assignment) (l : Literal) :
    countLits (unitStep f a l).1 ≤ countLits f :=
  Nat.le_trans (countLits_map_erase_le _ _) (countLits_filter_le _ _)

theorem countLits_filter_add_le {c : Clause} {f : Formula}
    (p : Clause → Bool) (hc : c ∈ f) (hp : p c = false) :
    countLits (f.filter p) + c.length ≤ countLits f := by
  induction f with
  | nil => cases hc
  | cons d f ih =>
      rcases List.mem_cons.mp hc with h | h
      · subst h
        rw [List.filter_cons, if_neg (by simp [hp])]
        have := countLits_filter_le p f
        simp only [countLits_cons]
        omega
      · by_cases hd : p d = true
        · rw [List.filter_cons, if_pos hd]
          simp only [countLits_cons]
          have := ih h
          omega
        · rw [List.filter_cons, if_neg hd]
          simp only [countLits_cons]
          have := ih h
          omega

theorem countLits_unitStep_lt {f : Formula} {a : Assignment} {l : Literal}
    (h : [l] ∈ f) : countLits (unitStep f a l).1 < countLits f := by
  have h1 : countLits (f.filter (fun c => !c.contains l)) + 1 ≤ countLits f := by
    have := countLits_filter_add_le (c := [l]) (f := f)
      (fun c => !c.contains l) h (by simp)
    simpa using this
  have h2 := countLits_map_erase_le (f.filter (fun c => !c.contains l)) (-l)
  show countLits ((f.filter (fun c => !c.contains l)).map
      (fun c => c.erase (-l))) < countLits f
  omega

theorem countLits_processUnits_le (ls : List Literal) (f : Formula)
    (a : Assignment) : countLits (processUnits ls f a).1 ≤ countLits f := by
  induction ls generalizing f a with
  | nil => exact Nat.le_refl _
  | cons l ls ih =>
      have hstep : processUnits (l :: ls) f a =
          processUnits ls (unitStep f a l).1 (unitStep f a l).2 := rfl
      rw [hstep]
      exact Nat.le_trans (ih _ _) (countLits_unitStep_le f a l)

theorem unitOf_eq_some {c : Clause} {l : Literal} (h : unitOf c = some l) :
    c = [l] := by
  match c with
  | [] => simp [unitOf] at h
  | [x] => simp [unitOf] at h; rw [h]
  | x :: y :: rest => simp [unitOf] at h

theorem countLits_processUnits_lt {f : Formula} {a : Assignment}
    {l : Literal} {ls : List Literal} (h : f.filterMap unitOf = l :: ls) :
    countLits (processUnits (l :: ls) f a).1 < countLits f := by
  have hl : l ∈ f.filterMap unitOf := by rw [h]; exact List.mem_cons_self l ls
  obtain ⟨c, hc, hcl⟩ := List.mem_filterMap.mp hl
  have hcc : c = [l] := unitOf_eq_some hcl
  subst hcc
  have hstep : processUnits (l :: ls) f a =
      processUnits ls (unitStep f a l).1 (unitStep f a l).2 := rfl
  rw [hstep]
  exact Nat.lt_of_le_of_lt (countLits_processUnits_le ls _ _)
    (countLits_unitStep_lt hc)

theorem unitOf_eq_none_iff {c : Clause} : unitOf c = none ↔ c.length ≠ 1 := by
  match c with
  | [] => simp [unitOf]
  | [x] => simp [unitOf]
  | x :: y :: rest => simp [unitOf]

theorem unitPropagateGo_no_units {fuel : Nat} {f : Formula} {a : Assignment}
    (h : countLits f < fuel) :
    ∀ c ∈ (unitPropagateGo fuel f a).1, unitOf c = none := by
  induction fuel generalizing f a with
  | zero => exact absurd h (Nat.not_lt_zero _)
  | succ n ih =>
      cases hu : f.filterMap unitOf with
      | nil =>
          simp only [unitPropagateGo, hu]
          exact List.filterMap_eq_nil_iff.mp hu
      | cons l ls =>
          simp only [unitPropagateGo, hu]
          apply ih
          have := countLits_processUnits_lt (a := a) hu
          omega

theorem mem_of_mem_pureFold {c : Clause} :
    ∀ (ls : List Literal) (st : Formula × Assignment),
      c ∈ (ls.foldl (fun p l =>
        (p.1.filter (fun c => !c.contains l),
         insertA p.2 (absL l) (decide (l > 0)))) st).1 → c ∈ st.1 := by
  intro ls
  induction ls with
  | nil => intro st h; exact h
  | cons l ls ih =>
      intro st h
      have h2 := ih _ h
      exact List.mem_of_mem_filter h2

theorem mem_of_mem_pureLiteralAssignment {c : Clause} {f : Formula}
    {a : Assignment} (h : c ∈ (pureLiteralAssignment f a).1) : c ∈ f :=
  mem_of_mem_pureFold _ (f, a) h

theorem lookupA_insertA_isSome (a : Assignment) (k : Literal) (v : Bool)
    (x : Literal) (h : (lookupA a x).isSome = true) :
    (lookupA (insertA a k v) x).isSome = true := by
  induction a with
  | nil => simp [lookupA] at h
  | cons p rest ih =>
      obtain ⟨k', v'⟩ := p
      by_cases hk : k' = k
      · subst hk
        simp only [insertA, if_pos rfl]
        by_cases hx : k' = x
        · simp [lookupA, hx]
        · simp only [lookupA, if_neg hx] at h ⊢
          exact h
      · simp only [insertA, if_neg hk]
        by_cases hx : k' = x
        · simp [lookupA, hx]
        · simp only [lookupA, if_neg hx] at h ⊢
          exact ih h

theorem lookupA_processUnits_isSome (ls : List Literal) (f : Formula)
    (a : Assignment) (x : Literal) (h : (lookupA a x).isSome = true) :
    (lookupA (processUnits ls f a).2 x).isSome = true := by
  induction ls generalizing f a with
  | nil => exact h
  | cons l ls ih =>
      have hstep : processUnits (l :: ls) f a =
          processUnits ls (unitStep f a l).1 (unitStep f a l).2 := rfl
      rw [hstep]
      exact ih _ _ (lookupA_insertA_isSome a (absL l) (decide (l > 0)) x h)

theorem lookupA_unitPropagateGo_isSome (fuel : Nat) (f : Formula)
    (a : Assignment) (x : Literal) (h : (lookupA a x).isSome = true) :
    (lookupA (unitPropagateGo fuel f a).2 x).isSome = true := by
  induction fuel generalizing f a with
  | zero => exact h
  | succ n ih =>
      cases hu : f.filterMap unitOf with
      | nil => simp only [unitPropagateGo, hu]; exact h
      | cons l ls =>
          simp only [unitPropagateGo, hu]
          exact ih _ _ (lookupA_processUnits_isSome (l :: ls) f a x h)

theorem lookupA_pureFold_isSome (x : Literal) :
    ∀ (ls : List Literal) (st : Formula × Assignment),
      (lookupA st.2 x).isSome = true →
      (lookupA (ls.foldl (fun p l =>
        (p.1.filter (fun c => !c.contains l),
         insertA p.2 (absL l) (decide (l > 0)))) st).2 x).isSome = true := by
  intro ls
  induction ls with
  | nil => intro st h; exact h
  | cons l ls ih =>
      intro st h
      exact ih _ (lookupA_insertA_isSome st.2 (absL l) (decide (l > 0)) x h)

theorem checkClauseValidity_eq_false {f : Formula} :
    checkClauseValidity f = false ↔ [] ∈ f := by
  unfold checkClauseValidity
  rw [List.all_eq_false]
  constructor
  · rintro ⟨c, hc, hne⟩
    have hc0 : c = [] := by
      rcases c with _ | ⟨d, c⟩
      · rfl
      · simp at hne
    exact hc0 ▸ hc
  · intro h; exact ⟨[], h, by simp⟩

theorem isSatisfied_eq_false_of_nil_mem {f : Formula} {a : Assignment}
    (h : [] ∈ f) : isSatisfied f a = false := by
  unfold isSatisfied
  exact List.all_eq_false.mpr ⟨[], h, by simp⟩

theorem nil_mem_simplifyFormula {f : Formula} (l : Literal) (h : [] ∈ f) :
    [] ∈ simplifyFormula f l := by
  unfold simplifyFormula
  exact List.mem_map.mpr ⟨[], List.mem_filter.mpr ⟨h, by simp⟩, rfl⟩

theorem rsGo_eq_nil_of_nil_mem (fuel : Nat) {f : Formula} {a : Assignment}
    (h : [] ∈ f) : rsGo fuel f a = [] := by
  cases fuel with
  | zero => rfl
  | succ n =>
      have hne : f.isEmpty = false :=
        List.isEmpty_eq_false.mpr (by rintro rfl; cases h)
      have hv : checkClauseValidity f = false :=
        checkClauseValidity_eq_false.mpr h
      simp [rsGo, hne, hv]

/-! ### Claim theorems -/

/-- Claim C1: the claim states that whenever Solve returns (true, A),
isSatisfied(F, A) is true and every variable of F is assigned in A.  The
code violates this: on F = [[-1,2],[1,-2]] the only two results Solve can
return (one per branch task, whichever publishes last) are both (true, A)
with isSatisfied(F, A) = false and with no entry for variable 1, because
the Branch step stored the decision under the key -1.  This theorem
evaluates the code at that failing input. -/
theorem solve_true_result_unsatisfying :
    solveResults [[-1, 2], [1, -2]] [] =
      [(true, [(-1, true), (2, false)]), (true, [(-1, false), (2, true)])] ∧
    isSatisfied [[-1, 2], [1, -2]] [(-1, true), (2, false)] = false ∧
    isSatisfied [[-1, 2], [1, -2]] [(-1, false), (2, true)] = false ∧
    lookupA [(-1, true), (2, false)] 1 = none ∧
    lookupA [(-1, false), (2, true)] 1 = none := by
  decide

/-- Claim C2: the claim states that the Branch step records the decision
under the selected literal's variable id (its absolute value).  The code
writes assignment1[selectedLiteral] = true with the raw literal as key: on
F = [[-1,2],[1,-2]] the selector returns -1 and both branch assignments
key the decision under -1, leaving variable 1 (the absolute value) without
an entry.  This theorem evaluates the code at that failing input. -/
theorem branch_records_raw_literal_key :
    selectLiteral [[-1, 2], [1, -2]] [] = some (-1) ∧
    propagate [[-1, 2], [1, -2]] [] = ([[-1, 2], [1, -2]], []) ∧
    branchTrue [] (-1) = [(-1, true)] ∧
    branchFalse [] (-1) = [(-1, false)] ∧
    lookupA (branchTrue [] (-1)) 1 = none ∧
    lookupA (branchTrue [] (-1)) (-1) = some true := by
  decide

/-- Claim C3, counterexample: under assignment {1 ↦ false} the clause
[1,2] is a unit clause in the spec's sense (discarding the falsified
literal 1 leaves exactly the undetermined literal 2), but the engine's
test (clause length exactly 1) does not treat it as one: unitPropagate
leaves the formula and assignment unchanged and forces nothing. -/
theorem unit_detection_ignores_assignment_cex :
    specUnitClause [(1, false)] [1, 2] = true ∧
    unitOf [1, 2] = none ∧
    unitPropagate [[1, 2]] [(1, false)] = ([[1, 2]], [(1, false)]) ∧
    lookupA (unitPropagate [[1, 2]] [(1, false)]).2 2 = none := by
  decide

/-- Claim C3, amended: the engine treats a clause as a unit clause iff its
length is exactly 1, irrespective of the assignment; this coincides with
the spec's discard-falsified definition exactly on clauses none of whose
variables is assigned (the situation unitPropagate is invoked in by Solve,
where decided literals have already been removed from the formula). -/
theorem unit_iff_singleton_when_undetermined (a : Assignment) (c : Clause)
    (h : ∀ l ∈ c, lookupA a (absL l) = none) :
    specUnitClause a c = true ↔ (unitOf c).isSome = true := by
  have hf : c.filter (fun l => !literalFalsified a l) = c :=
    List.filter_eq_self.mpr (fun l hl => by
      simp [literalFalsified, h l hl])
  have hu : c.filter (literalUndetermined a) = c :=
    List.filter_eq_self.mpr (fun l hl => by
      simp [literalUndetermined, h l hl])
  unfold specUnitClause
  rw [hf, hu]
  match c with
  | [] => simp [unitOf]
  | [x] => simp [unitOf]
  | x :: y :: rest => simp [unitOf]

theorem unit_iff_singleton_when_undetermined_witness :
    (∀ l ∈ ([1] : Clause), lookupA [((5 : Int), true)] (absL l) = none) ∧
    (specUnitClause [((5 : Int), true)] [1] = true ↔
      (unitOf ([1] : Clause)).isSome = true) :=
  ⟨by decide, unit_iff_singleton_when_undetermined _ _ (by decide)⟩

/-- Claim C4, counterexample: for the formula [[1],[-1]] both unit clauses
are captured in the same pass; processing [1] forces variable 1 to true,
and processing [-1] afterwards re-assigns it to false inside the same
unitPropagate call, so the forced value IS overwritten, contrary to the
claim's own example. -/
theorem unit_propagate_overwrites_cex :
    ([[1], [-1]] : Formula).filterMap unitOf = [1, -1] ∧
    lookupA (unitStep [[1], [-1]] [] 1).2 1 = some true ∧
    lookupA (unitPropagate [[1], [-1]] []).2 1 = some false := by
  decide

/-- Claim C4, amended: within one call the propagation engine never
removes a variable's entry (the assignment domain only grows), but it may
overwrite an already-assigned variable with the opposite value when
complementary unit clauses are captured in the same pass. -/
theorem propagate_never_unassigns (f : Formula) (a : Assignment)
    (x : Literal) (h : (lookupA a x).isSome = true) :
    (lookupA (propagate f a).2 x).isSome = true := by
  have h1 : (lookupA (unitPropagate f a).2 x).isSome = true :=
    lookupA_unitPropagateGo_isSome _ _ _ _ h
  unfold propagate pureLiteralAssignment
  exact lookupA_pureFold_isSome x _ _ h1

theorem propagate_never_unassigns_witness :
    (lookupA [((5 : Int), true)] 5).isSome = true ∧
    (lookupA (propagate [[1], [-1]] [((5 : Int), true)]).2 5).isSome
      = true :=
  ⟨by decide, propagate_never_unassigns _ _ _ (by decide)⟩

/-- Claim C5, counterexample: on [[1],[-1],[2,3],[-2,-3],[2,-3],[-2,3]]
unit propagation produces a formula containing an empty clause, so by the
claim the node should report UNSAT before selecting a literal.  Instead
the code re-runs checkClauseValidity on the ORIGINAL formula (which
passes, being the same check that already passed at entry), consults the
selector, obtains literal 2 and branches; the node still ends up with the
UNSAT verdict, but only because every child fails its own entry validity
check. -/
theorem postcheck_on_original_formula_cex :
    checkClauseValidity
      (propagate [[1], [-1], [2, 3], [-2, -3], [2, -3], [-2, 3]] []).1
      = false ∧
    checkClauseValidity [[1], [-1], [2, 3], [-2, -3], [2, -3], [-2, 3]]
      = true ∧
    selectLiteral
      (propagate [[1], [-1], [2, 3], [-2, -3], [2, -3], [-2, 3]] []).1
      (propagate [[1], [-1], [2, 3], [-2, -3], [2, -3], [-2, 3]] []).2
      = some 2 ∧
    solveResults [[1], [-1], [2, 3], [-2, -3], [2, -3], [-2, 3]] []
      = [(false, [])] := by
  decide

/-- Claim C5, amended: after propagation the code re-runs the validity
check on the original formula (a no-op, since that check already passed at
entry), so a node whose propagated formula contains an empty clause is not
short-circuited there and may select a literal and branch; it nevertheless
reports UNSAT, returning (false, initialAssignment), because the empty
clause survives into every child, which then fails its entry validity
check and publishes nothing. -/
theorem invalid_propagated_formula_unsat (f : Formula) (a : Assignment)
    (h1 : isSatisfied f a = false)
    (h2 : checkClauseValidity (propagate f a).1 = false) :
    ∀ r ∈ solveResults f a, r = (false, a) := by
  intro r hr
  have hp2 : [] ∈ (propagate f a).1 := checkClauseValidity_eq_false.mp h2
  have h3 : isSatisfied (propagate f a).1 (propagate f a).2 = false :=
    isSatisfied_eq_false_of_nil_mem hp2
  by_cases he : f.isEmpty = true
  · simp only [solveResults, he, if_pos] at hr
    simpa using hr
  · by_cases hv : checkClauseValidity f = true
    · rw [solveResults] at hr
      simp only [he, hv, h1, h3, Bool.not_true, Bool.false_eq_true,
        if_false] at hr
      cases hsel : selectLiteral (propagate f a).1 (propagate f a).2 with
      | none => simp only [hsel] at hr; simpa using hr
      | some l =>
          have w1 : recursiveSolutionWinners
              (simplifyFormula (propagate f a).1 l)
              (branchTrue (propagate f a).2 l) = [] :=
            rsGo_eq_nil_of_nil_mem _ (nil_mem_simplifyFormula _ hp2)
          have w2 : recursiveSolutionWinners
              (simplifyFormula (propagate f a).1 (-l))
              (branchFalse (propagate f a).2 l) = [] :=
            rsGo_eq_nil_of_nil_mem _ (nil_mem_simplifyFormula _ hp2)
          simp only [hsel, w1, w2, List.nil_append, List.isEmpty_nil,
            if_pos] at hr
          simpa using hr
    · rw [solveResults] at hr
      simp only [he, Bool.not_eq_true] at hv
      simp only [he, hv, Bool.not_false, if_pos, Bool.false_eq_true,
        if_false] at hr
      simpa using hr

theorem invalid_propagated_formula_unsat_witness :
    isSatisfied [[1], [-1], [2, 3], [-2, -3], [2, -3], [-2, 3]] [] = false ∧
    checkClauseValidity
      (propagate [[1], [-1], [2, 3], [-2, -3], [2, -3], [-2, 3]] []).1
      = false ∧
    ((false, ([] : Assignment)) ∈
      solveResults [[1], [-1], [2, 3], [-2, -3], [2, -3], [-2, 3]] []) ∧
    ((false, ([] : Assignment)) = ((false : Bool), ([] : Assignment))) :=
  ⟨by decide, by decide, by decide,
    invalid_propagated_formula_unsat
      [[1], [-1], [2, 3], [-2, -3], [2, -3], [-2, 3]] []
      (by decide) (by decide) (false, []) (by decide)⟩

/-- Claim C6, counterexample: on [[1,-2],[2,3],[2,-3]] the propagation
pipeline (unit propagation to fixpoint, then one pass of pure-literal
elimination) eliminates the pure literal 1, and in the returned formula
[[2,3],[2,-3]] the literal 2 now occurs with only one polarity — a pure
literal remains, so pure-literal elimination did NOT reach a fixpoint. -/
theorem pure_literal_remains_cex :
    propagate [[1, -2], [2, 3], [2, -3]] []
      = ([[2, 3], [2, -3]], [(1, true)]) ∧
    ([[2, 3], [2, -3]] : Formula).flatten.contains 2 = true ∧
    ([[2, 3], [2, -3]] : Formula).flatten.contains (-2) = false := by
  decide

/-- Claim C6, amended: when the propagation pipeline returns, the
unit-propagation rule has reached a fixpoint — the returned formula
contains no unit (length-1) clause, since the unit loop only exits when
none remains and pure-literal elimination only deletes whole clauses — but
pure-literal elimination is applied in a single pass computed from the
unit-propagated formula, and deleting clauses can leave new pure literals
in the returned formula. -/
theorem propagate_no_unit_clauses (f : Formula) (a : Assignment)
    (c : Clause) (h : c ∈ (propagate f a).1) : c.length ≠ 1 := by
  have h1 : c ∈ (unitPropagate f a).1 :=
    mem_of_mem_pureLiteralAssignment h
  have h2 : unitOf c = none :=
    unitPropagateGo_no_units (Nat.lt_succ_self _) c h1
  exact unitOf_eq_none_iff.mp h2

theorem propagate_no_unit_clauses_witness :
    ([1, 2] ∈ (propagate [[1, 2], [-1, 2], [1, -2]] []).1) ∧
    ([1, 2] : Clause).length ≠ 1 :=
  ⟨by decide,
    propagate_no_unit_clauses [[1, 2], [-1, 2], [1, -2]] [] [1, 2]
      (by decide)⟩

/-- Claim C7: for every assignment, Solve on the empty formula returns
(false, assignment): the empty Formula is reported UNSAT, the documented
historical convention. -/
theorem solve_empty_formula_unsat (a : Assignment) :
    solveResults [] a = [(false, a)] := rfl

/-- Claim C9: the claim states that the shared result cell admits at most
one successful write (first writer wins, later results discarded) via an
atomic test-and-set.  The code's publish section instead performs an
unconditional overwrite under the mutex: a second publish replaces the
first writer's result (last writer wins), unlike the spec-modelled
test-and-set cell, which keeps the first; the reader-side entry check also
returns while still holding the read lock.  This theorem evaluates both
cells on two successive publishes. -/
theorem publish_last_writer_wins :
    publish (publish ⟨false, []⟩ [(1, true)]) [(1, false)]
      = ⟨true, [(1, false)]⟩ ∧
    publishSpec (publishSpec ⟨false, []⟩ [(1, true)]) [(1, false)]
      = ⟨true, [(1, true)]⟩ := by
  decide

/-- Claim C8: selectLiteral scans clauses in formula order and returns the
first literal (in first-occurrence order over the flattened formula) whose
variable has no entry in the assignment, and it returns the not-found
error (modelled as none) iff every literal occurring in the formula has
its variable assigned. -/
theorem selectLiteral_first_unassigned (f : Formula) (a : Assignment) :
    selectLiteral f a = selectLiteralSpec f a ∧
    (selectLiteral f a = none ↔
      ∀ l ∈ f.flatten, (lookupA a (absL l)).isSome = true) := by
  have hmain : selectLiteral f a = selectLiteralSpec f a := by
    induction f with
    | nil => rfl
    | cons c rest ih =>
        unfold selectLiteralSpec at ih ⊢
        rw [List.flatten_cons, List.find?_append]
        cases hc : c.find? (fun l => (lookupA a (absL l)).isNone) with
        | some l => simp only [selectLiteral, hc]; rfl
        | none => simp only [selectLiteral, hc]; exact ih
  refine ⟨hmain, ?_⟩
  rw [hmain]
  unfold selectLiteralSpec
  rw [List.find?_eq_none]
  constructor
  · intro h l hl
    have h2 := h l hl
    cases hx : lookupA a (absL l) with
    | none => rw [hx] at h2; simp at h2
    | some v => simp [hx]
  · intro h l hl
    have h2 := h l hl
    cases hx : lookupA a (absL l) with
    | none => rw [hx] at h2; simp at h2
    | some v => simp [hx]

/-- Claim C10: whenever Solve returns a false verdict, the assignment it
returns is exactly the initialAssignment it was called with — every UNSAT
return site in Solve returns the untouched parameter, and the fork-join
result is only consulted when ans.satisfied is true. -/
theorem solve_false_returns_initial_assignment (f : Formula)
    (a : Assignment) (b : Bool) (r : Assignment)
    (h : (b, r) ∈ solveResults f a) (hb : b = false) : r = a := by
  subst hb
  rw [solveResults] at h
  by_cases he : f.isEmpty = true
  · simp only [he, if_pos, List.mem_singleton, Prod.mk.injEq] at h
    exact h.2
  · by_cases hv : checkClauseValidity f = true
    · by_cases hs : isSatisfied f a = true
      · simp [he, hv, hs] at h
      · simp only [Bool.not_eq_true] at hs
        by_cases hps :
            isSatisfied (propagate f a).1 (propagate f a).2 = true
        · simp [he, hv, hs, hps] at h
        · simp only [Bool.not_eq_true] at hps
          cases hsel :
              selectLiteral (propagate f a).1 (propagate f a).2 with
          | none =>
              simp only [he, hv, hs, hps, hsel, Bool.not_true,
                Bool.false_eq_true, if_false, List.mem_singleton,
                Prod.mk.injEq] at h
              exact h.2
          | some l =>
              by_cases hw :
                  (recursiveSolutionWinners
                      (simplifyFormula (propagate f a).1 l)
                      (branchTrue (propagate f a).2 l) ++
                    recursiveSolutionWinners
                      (simplifyFormula (propagate f a).1 (-l))
                      (branchFalse (propagate f a).2 l)).isEmpty = true
              · simp only [he, hv, hs, hps, hsel, hw, Bool.not_true,
                  Bool.false_eq_true, if_false, if_true,
                  List.mem_singleton, Prod.mk.injEq] at h
                exact h.2
              · simp [he, hv, hs, hps, hsel, hw] at h
    · simp only [Bool.not_eq_true] at hv
      simp only [he, hv, Bool.not_false, if_true, Bool.false_eq_true,
        if_false, List.mem_singleton, Prod.mk.injEq] at h
      exact h.2

theorem solve_false_returns_initial_assignment_witness :
    ((false, ([] : Assignment)) ∈ solveResults [[1], [-1]] []) ∧
    (([] : Assignment) = ([] : Assignment)) :=
  ⟨by decide,
    solve_false_returns_initial_assignment [[1], [-1]] [] false []
      (by decide) rfl⟩

end DPLL
